import Mathlib

/-!
Verification of the operon evaluation-and-deduplication engine
(`operon_analyzer/genes.py` and `operon_analyzer/analyze.py`).

The Python data model and algorithms are shallowly embedded as executable
Lean definitions.  Genomic coordinates are Python ints, modelled as `Int`
(gap computations may be negative).  Float-valued fields (`e_val`,
`bit_score`) are never used arithmetically by the modelled code — only
their presence is tested — so their values are modelled as `Rat`.
-/

set_option maxHeartbeats 1000000

namespace OperonAnalyzer

/-- Embeds `Feature` from `genes.py`: one annotated gene or CRISPR repeat
array.  `ignored_reasons` starts empty at construction and is only ever
appended to by `ignore`. -/
structure Feature where
  name : String
  coordinates : Int × Int
  orfid : String
  strand : Option Int
  accession : String
  e_val : Option Rat
  description : String
  sequence : String
  bit_score : Option Rat := none
  ignored_reasons : List String := []
  deriving DecidableEq

/-- Embeds the `Feature.start` property: the smaller coordinate. -/
def Feature.start (f : Feature) : Int :=
  min f.coordinates.1 f.coordinates.2

/-- Embeds the `Feature.end` property: the larger coordinate. -/
def Feature.«end» (f : Feature) : Int :=
  max f.coordinates.1 f.coordinates.2

/-- Embeds `Feature.ignore(reason)`: appends a reason to `ignored_reasons`. -/
def Feature.ignore (f : Feature) (reason : String) : Feature :=
  { f with ignored_reasons := f.ignored_reasons ++ [reason] }

/-- Embeds `Operon` from `genes.py`: a contig region owning an ordered
list of Features. -/
structure Operon where
  contig : String
  contig_filename : String
  start : Int
  «end» : Int
  _features : List Feature
  deriving DecidableEq

/-- Embeds `Operon.__init__` with its three `assert` statements: the
constructor fails (returns `none`) when the contig name is empty (falsy),
a position is negative, or the feature list is empty (falsy); otherwise it
stores the arguments unchanged. -/
def mkOperon (contig : String) (contig_filename : String) (start : Int)
    («end» : Int) (features : List Feature) : Option Operon :=
  if contig = "" then none
  else if ¬(0 ≤ start ∧ 0 ≤ «end») then none
  else if features = [] then none
  else some ⟨contig, contig_filename, start, «end», features⟩

/-- Embeds `Operon.__iter__`: the Features whose `ignored_reasons` list is
empty, in storage order. -/
def Operon.activeFeatures (op : Operon) : List Feature :=
  op._features.filter (fun f => f.ignored_reasons.isEmpty)

/-- Embeds `Operon.__len__`: the number of active Features. -/
def Operon.len (op : Operon) : Nat :=
  op.activeFeatures.length

/-- Embeds the `Operon.all_features` property (every Feature, ignored or
not). -/
def Operon.all_features (op : Operon) : List Feature :=
  op._features

/-- Embeds the `Operon.all_genes` property: Features with a present
`e_val`, ignored or not. -/
def Operon.all_genes (op : Operon) : List Feature :=
  op._features.filter (fun f => f.e_val.isSome)

/-- Embeds `Operon.get(feature_name, regex)`.  The compiled regular
expression (`^name$` when `regex=False`) is abstracted as the match
predicate `p` applied to the name of each active Feature. -/
def Operon.get (op : Operon) (p : String → Bool) : List Feature :=
  op.activeFeatures.filter (fun f => p f.name)

/-- Embeds `Operon.get_unique`: `None` unless exactly one Feature
matches. -/
def Operon.get_unique (op : Operon) (p : String → Bool) : Option Feature :=
  let features := op.get p
  if features.length ≠ 1 then none else features.head?

/-- List update applying `f` to the element at index `i` (used to model
in-place mutation of one Feature in the feature list of an Operon). -/
def modifyIdx (f : Feature → Feature) : Nat → List Feature → List Feature
  | _, [] => []
  | 0, x :: xs => f x :: xs
  | n + 1, x :: xs => x :: modifyIdx f n xs

/-- Calling `ignore(reason)` on the `i`-th Feature of the feature list
of an Operon (in-place mutation modelled functionally). -/
def Operon.ignoreAt (op : Operon) (i : Nat) (reason : String) : Operon :=
  { op with _features := modifyIdx (fun f => f.ignore reason) i op._features }

/-- Embeds Python `sorted(operon, key=lambda x: x.start)`: the active
Features stably sorted by ascending `start`.  The Python sort is stable,
and `List.insertionSort` is the stable sort for this total preorder, so
the two agree on every input. -/
def sortByStart (fs : List Feature) : List Feature :=
  List.insertionSort (fun a b => a.start ≤ b.start) fs

/-- Embeds the gap computation of `_operons_are_approximately_equal`:
`tuple(f2.start - f1.end for f1, f2 in zip(fs, fs[1:]))`. -/
def featureGaps (fs : List Feature) : List Int :=
  (fs.zip fs.tail).map (fun p => p.2.start - p.1.«end»)

/-- Embeds `_operons_are_approximately_equal` from `analyze.py`. -/
def operonsAreApproximatelyEqual (leader operon : Operon) : Bool :=
  let leaderSorted := sortByStart leader.activeFeatures
  let operonSorted := sortByStart operon.activeFeatures
  let leaderNames := leaderSorted.map (fun f => f.name)
  let operonNames := operonSorted.map (fun f => f.name)
  -- exclude CRISPR arrays during position/sequence comparisons
  let leaderFeatures := leaderSorted.filter (fun f => f.name ≠ "CRISPR array")
  let operonFeatures := operonSorted.filter (fun f => f.name ≠ "CRISPR array")
  let leaderGaps := featureGaps leaderFeatures
  let operonGaps := featureGaps operonFeatures
  if leaderNames == operonNames && leaderGaps == operonGaps then
    (leaderFeatures.zip operonFeatures).all (fun p => p.1.sequence == p.2.sequence)
  else if leaderNames == operonNames.reverse && leaderGaps == operonGaps.reverse then
    (leaderFeatures.zip operonFeatures.reverse).all (fun p => p.1.sequence == p.2.sequence)
  else false

/-- Embeds `_get_sorted_feature_names`: names of the active Features,
ordered by lowest genomic coordinate. -/
def getSortedFeatureNames (op : Operon) : List String :=
  (sortByStart op.activeFeatures).map (fun f => f.name)

/-- The bins dictionary of `cluster_operons_by_feature_order`: a
`defaultdict(list)` keyed by name tuples.  Python dicts preserve key
insertion order, so the map is embedded as an insertion-ordered
association list. -/
abbrev Bins := List (List String × List Operon)

/-- Embeds `bins[key].append(op)`: appends to the existing bucket, or creates a
new bucket at the end of the dict order (defaultdict behaviour). -/
def addToBin (key : List String) (op : Operon) : Bins → Bins
  | [] => [(key, [op])]
  | (k, ops) :: rest =>
      if k = key then (k, ops ++ [op]) :: rest
      else (k, ops) :: addToBin key op rest

/-- Embeds `key in bins`: dict key membership. -/
def hasKey (bins : Bins) (key : List String) : Bool :=
  bins.any (fun b => b.1 = key)

/-- One iteration of the loop of `cluster_operons_by_feature_order`. -/
def clusterStep (bins : Bins) (operon : Operon) : Bins :=
  let feature_names := getSortedFeatureNames operon
  let reverse_feature_names := feature_names.reverse
  if ¬hasKey bins reverse_feature_names then
    addToBin feature_names operon bins
  else
    addToBin reverse_feature_names operon bins

/-- Embeds `cluster_operons_by_feature_order`. -/
def cluster_operons_by_feature_order (operons : List Operon) : Bins :=
  operons.foldl clusterStep []

/-- A deduplication group: the leader (`group[0]`) together with the later
members appended behind it. -/
abbrev Group := Operon × List Operon

/-- All members of a group, leader first. -/
def groupMembers (g : Group) : List Operon :=
  g.1 :: g.2

/-- Embeds `len(group)`: the number of members of a group. -/
def groupSize (g : Group) : Nat :=
  (groupMembers g).length

/-- Embeds the `for group in groups: ... else: groups.append([operon])`
search of both deduplication loops: the operon joins the first group whose
leader it `eq`-matches, otherwise it founds a new group at the end. -/
def insertIntoGroups (eq : Operon → Operon → Bool) (op : Operon) :
    List Group → List Group
  | [] => [(op, [])]
  | g :: rest =>
      if eq g.1 op then (g.1, g.2 ++ [op]) :: rest
      else g :: insertIntoGroups eq op rest

/-- Embeds `groups = sorted(groups, key=lambda x: -len(x))`: stable sort
by descending group size (the Python sort is stable, and so is
`List.insertionSort`). -/
def sortGroups (groups : List Group) : List Group :=
  List.insertionSort (fun a b => groupSize b ≤ groupSize a) groups

/-- The inner grouping loop shared by `group_similar_operons` and
`deduplicate_operons_approximate`, over the members of one cluster. -/
def processCluster (eq : Operon → Operon → Bool) (ops : List Operon) :
    List Group :=
  ops.foldl (fun groups op => sortGroups (insertIntoGroups eq op groups)) []

/-- The per-cluster body of both deduplication functions: a singleton
cluster is emitted directly, otherwise one representative (the leader,
`group[0]`) per group. -/
def dedupCluster (eq : Operon → Operon → Bool) (ops : List Operon) :
    List Operon :=
  if ops.length = 1 then ops
  else (processCluster eq ops).map (fun g => g.1)

/-- The leader comparison of `group_similar_operons`: the candidate
bounded-region sequence, forward or reverse-complemented, is
character-identical to that of the leader.  `feature_region_sequence` (set by
the external `load` collaborator) is abstracted as the function `seq`,
and `Seq.reverse_complement` as `rc`. -/
def exactSequenceMatch (seq : Operon → String) (rc : String → String)
    (leader op : Operon) : Bool :=
  seq op = seq leader ∨ rc (seq op) = seq leader

/-- Embeds `group_similar_operons` (exact deduplication).  The
`load_sequences` side effect is external; the loaded sequences are the
function `seq`. -/
def group_similar_operons (seq : Operon → String) (rc : String → String)
    (operons : List Operon) : List Operon :=
  (cluster_operons_by_feature_order operons).foldl
    (fun acc b => acc ++ dedupCluster (exactSequenceMatch seq rc) b.2) []

/-- Embeds `deduplicate_operons_approximate`. -/
def deduplicate_operons_approximate (operons : List Operon) : List Operon :=
  (cluster_operons_by_feature_order operons).foldl
    (fun acc b => acc ++ dedupCluster operonsAreApproximatelyEqual b.2) []

/-- The `if filterset is not None: filterset.evaluate(operon)` step of
`_evaluate_operons`: the external filter policy mutates the Features
of the Operon in place, modelled as the optional function `filterset` applied
to the Operon. -/
def applyFilterset (filterset : Option (Operon → Operon)) (operon : Operon) :
    Operon :=
  match filterset with
  | some fs => fs operon
  | none => operon

/-- Embeds `_evaluate_operons`.  The external `RuleSet.evaluate` returns a
`Result`, modelled as the function `ruleset` into an abstract Result type
`R`. -/
def evaluate_operons {R : Type} (ruleset : Operon → R)
    (filterset : Option (Operon → Operon)) : List Operon → List R
  | [] => []
  | operon :: rest =>
      ruleset (applyFilterset filterset operon) ::
        evaluate_operons ruleset filterset rest

/-- The list stored under a key of the bins dictionary (empty when the
key is absent). -/
def getBucket (bins : Bins) (key : List String) : List Operon :=
  match bins.find? (fun b => b.1 == key) with
  | some b => b.2
  | none => []

/-! ### Spec-worded definitions (for refinement claims) -/

/-- The CRISPR-array-excluded sorted feature list of the spec: active Features
sorted by `start` with CRISPR arrays removed. -/
def specNonCrisprFeatures (op : Operon) : List Feature :=
  (sortByStart op.activeFeatures).filter (fun f => f.name ≠ "CRISPR array")

/-- The gap tuple of the spec: `next.start - previous.end` over the
CRISPR-array-excluded sorted features. -/
def specGapTuple (op : Operon) : List Int :=
  featureGaps (specNonCrisprFeatures op)

/-- Pointwise equality of the `sequence` strings of two feature lists
(the spec: every corresponding Feature sequence is equal). -/
def sequencesMatch (xs ys : List Feature) : Prop :=
  List.Forall₂ (fun f g => f.sequence = g.sequence) xs ys

instance (xs ys : List Feature) : Decidable (sequencesMatch xs ys) := by
  unfold sequencesMatch
  infer_instance

/-- The spec-worded approximate equality of claim C1: a plain disjunction of
the same-orientation case and the opposite-orientation case. -/
def approxEqualSpecClaim (leader operon : Operon) : Prop :=
  (getSortedFeatureNames leader = getSortedFeatureNames operon ∧
    specGapTuple leader = specGapTuple operon ∧
    sequencesMatch (specNonCrisprFeatures leader) (specNonCrisprFeatures operon))
  ∨ (getSortedFeatureNames leader = (getSortedFeatureNames operon).reverse ∧
    specGapTuple leader = (specGapTuple operon).reverse ∧
    sequencesMatch (specNonCrisprFeatures leader)
      (specNonCrisprFeatures operon).reverse)

/-- The amended spec for approximate equality: the opposite-orientation
case applies only when the same-orientation name-and-gap condition fails
(mirroring the `if`/`elif` in the source). -/
def approxEqualSpecAmended (leader operon : Operon) : Prop :=
  (getSortedFeatureNames leader = getSortedFeatureNames operon ∧
    specGapTuple leader = specGapTuple operon ∧
    sequencesMatch (specNonCrisprFeatures leader) (specNonCrisprFeatures operon))
  ∨ (¬(getSortedFeatureNames leader = getSortedFeatureNames operon ∧
      specGapTuple leader = specGapTuple operon) ∧
    getSortedFeatureNames leader = (getSortedFeatureNames operon).reverse ∧
    specGapTuple leader = (specGapTuple operon).reverse ∧
    sequencesMatch (specNonCrisprFeatures leader)
      (specNonCrisprFeatures operon).reverse)

/-! ### Concrete instances used in counterexamples and witnesses -/

/-- A protein-coding gene Feature (present `e_val`). -/
def geneFeature (name : String) (c1 c2 : Int) (seq : String) : Feature :=
  { name := name, coordinates := (c1, c2), orfid := "orf1", strand := some 1,
    accession := "acc", e_val := some 1, description := "", sequence := seq }

/-- A CRISPR array Feature (no strand, no `e_val`). -/
def crisprFeature (c1 c2 : Int) : Feature :=
  { name := "CRISPR array", coordinates := (c1, c2), orfid := "", strand := none,
    accession := "", e_val := none, description := "", sequence := "GTTTT" }

/-- A valid Operon on the given contig. -/
def baseOperon (contig : String) (fs : List Feature) : Operon :=
  { contig := contig, contig_filename := "contigs.fasta", start := 0,
    «end» := 100, _features := fs }

/-- Palindromic-name operon: two genes both named "a", sequences s then t. -/
def opPalindromeL : Operon :=
  baseOperon "c1" [geneFeature "a" 0 10 "s", geneFeature "a" 20 30 "t"]

/-- Its mirror candidate: same names and positions, sequences t then s. -/
def opPalindromeR : Operon :=
  baseOperon "c2" [geneFeature "a" 0 10 "t", geneFeature "a" 20 30 "s"]

/-- Two genes followed by a CRISPR array at 40..50. -/
def opCrisprA : Operon :=
  baseOperon "c" [geneFeature "g1" 0 10 "x", geneFeature "g2" 20 30 "y",
    crisprFeature 40 50]

/-- Identical to `opCrisprA` except the CRISPR array moved to 14..16,
between the two genes. -/
def opCrisprB : Operon :=
  baseOperon "c" [geneFeature "g1" 0 10 "x", geneFeature "g2" 20 30 "y",
    crisprFeature 14 16]

/-- Identical to `opCrisprA` except the CRISPR array extends to 40..55,
leaving the sorted feature order unchanged. -/
def opCrisprC : Operon :=
  baseOperon "c" [geneFeature "g1" 0 10 "x", geneFeature "g2" 20 30 "y",
    crisprFeature 40 55]

/-- Exact-dedup instance: lone operon on contig A. -/
def opExactA : Operon := baseOperon "A" [geneFeature "g" 0 10 "x"]

/-- Exact-dedup instance: first of two duplicates on contig B. -/
def opExactB : Operon := baseOperon "B" [geneFeature "g" 0 10 "x"]

/-- Exact-dedup instance: second duplicate on contig B2. -/
def opExactB2 : Operon := baseOperon "B2" [geneFeature "g" 0 10 "x"]

/-- Bounded-region sequences for the exact-dedup instance: the region
of contig A reads "X", the others read "Y". -/
def seqExact (op : Operon) : String :=
  if op.contig == "A" then "X" else "Y"

/-- Reverse complement for the exact-dedup instance (never matches). -/
def rcExact (s : String) : String :=
  String.append s "!"

/-- Operon with two active Features named "cas3". -/
def opCas3 : Operon :=
  baseOperon "c" [geneFeature "cas3" 0 10 "s1", geneFeature "cas3" 20 30 "s2"]

/-- A fully-ignored Feature. -/
def ignoredFeature (name : String) (c1 c2 : Int) : Feature :=
  { geneFeature name c1 c2 "q" with ignored_reasons := ["overlapping-feature"] }

/-- Operon all of whose Features are ignored. -/
def opAllIgnored1 : Operon :=
  baseOperon "ig1" [ignoredFeature "g1" 0 10]

/-- A second fully-ignored operon with different contig and contents. -/
def opAllIgnored2 : Operon :=
  baseOperon "ig2" [ignoredFeature "g2" 5 25, ignoredFeature "g3" 30 40]

/-! ## Theorems -/

/-- C5: For every input sequence of Operons, the evaluation pipeline
yields exactly one Result per input Operon, in input order, with no
Operon dropped; the filter policy (when supplied) is applied to each
Operon before the rule policy evaluates it. -/
theorem evaluate_operons_one_result_per_operon {R : Type}
    (ruleset : Operon → R) (filterset : Option (Operon → Operon))
    (operons : List Operon) :
    (evaluate_operons ruleset filterset operons).length = operons.length ∧
    ∀ i : Nat, (evaluate_operons ruleset filterset operons)[i]? =
      (operons[i]?).map (fun operon => ruleset (applyFilterset filterset operon)) := by
  induction operons with
  | nil => exact ⟨rfl, fun i => rfl⟩
  | cons op rest ih =>
      refine ⟨by simpa [evaluate_operons] using ih.1, fun i => ?_⟩
      cases i with
      | zero => simp [evaluate_operons]
      | succ n => simpa [evaluate_operons] using ih.2 n

/-- C6: Constructing an Operon fails exactly when the contig name is
empty, or start is negative, or end is negative, or the feature list is
empty; on success the given contig, contig_filename, start, end, and
feature list are stored unchanged. -/
theorem mkOperon_validation (contig contig_filename : String)
    (start «end» : Int) (features : List Feature) :
    (mkOperon contig contig_filename start «end» features = none ↔
      contig = "" ∨ start < 0 ∨ «end» < 0 ∨ features = []) ∧
    ∀ op : Operon, mkOperon contig contig_filename start «end» features = some op →
      op.contig = contig ∧ op.contig_filename = contig_filename ∧
      op.start = start ∧ op.«end» = «end» ∧ op._features = features := by
  unfold mkOperon
  constructor
  · by_cases hc : contig = "" <;>
      by_cases hs : 0 ≤ start ∧ 0 ≤ «end» <;>
      by_cases hf : features = [] <;>
      (simp [hc, hs, hf]; try omega)
  · intro op h
    split at h
    · exact absurd h (by simp)
    · split at h
      · exact absurd h (by simp)
      · split at h
        · exact absurd h (by simp)
        · cases h
          exact ⟨rfl, rfl, rfl, rfl, rfl⟩

/-- Closed witness for C6 at a concrete successful construction. -/
theorem mkOperon_validation_witness :
    let op : Operon := ⟨"contig7", "file.csv", 5, 9, [geneFeature "g" 0 1 "s"]⟩
    op.contig = "contig7" ∧ op.contig_filename = "file.csv" ∧
    op.start = 5 ∧ op.«end» = 9 ∧ op._features = [geneFeature "g" 0 1 "s"] :=
  (mkOperon_validation "contig7" "file.csv" 5 9 [geneFeature "g" 0 1 "s"]).2 _ rfl

/-- C8: `get_unique` returns the unique matching active Feature when
exactly one active Feature matches, and `none` both when zero match and
when more than one matches; in particular on an Operon with two active
Features named "cas3", `get_unique` returns `none` while `get` returns
both. -/
theorem get_unique_spec (op : Operon) (p : String → Bool) :
    ((op.get p).length = 1 → ∃ f : Feature, op.get p = [f] ∧ op.get_unique p = some f) ∧
    ((op.get p).length ≠ 1 → op.get_unique p = none) ∧
    opCas3.get_unique (fun s => s == "cas3") = none ∧
    opCas3.get (fun s => s == "cas3") =
      [geneFeature "cas3" 0 10 "s1", geneFeature "cas3" 20 30 "s2"] := by
  refine ⟨?_, ?_, by decide, by decide⟩
  · intro h
    obtain ⟨f, hf⟩ := List.length_eq_one.mp h
    exact ⟨f, hf, by simp [Operon.get_unique, hf]⟩
  · intro h
    simp [Operon.get_unique, h]

/-- Closed witness for C8: the two-cas3 Operon has two matches, hence
`get_unique` returns `none`; a singleton-match operon returns its match. -/
theorem get_unique_spec_witness :
    opCas3.get_unique (fun s => s == "cas3") = none ∧
    (∃ f : Feature, opExactA.get (fun s => s == "g") = [f] ∧
      opExactA.get_unique (fun s => s == "g") = some f) :=
  ⟨(get_unique_spec opCas3 (fun s => s == "cas3")).2.1 (by decide),
   (get_unique_spec opExactA (fun s => s == "g")).1 (by decide)⟩

theorem modifyIdx_length (f : Feature → Feature) (i : Nat)
    (fs : List Feature) : (modifyIdx f i fs).length = fs.length := by
  induction fs generalizing i with
  | nil => cases i <;> rfl
  | cons x xs ih =>
      cases i with
      | zero => rfl
      | succ n => simpa [modifyIdx] using ih n

theorem ignore_isEmpty_false (f : Feature) (r : String) :
    (f.ignore r).ignored_reasons.isEmpty = false := by
  simp [Feature.ignore]

theorem modifyIdx_active_count (r : String) :
    ∀ (fs : List Feature) (i : Nat) (h : i < fs.length),
      ((fs.get ⟨i, h⟩).ignored_reasons = [] →
        ((modifyIdx (fun f => f.ignore r) i fs).filter
          (fun f => f.ignored_reasons.isEmpty)).length + 1
          = (fs.filter (fun f => f.ignored_reasons.isEmpty)).length) ∧
      ((fs.get ⟨i, h⟩).ignored_reasons ≠ [] →
        ((modifyIdx (fun f => f.ignore r) i fs).filter
          (fun f => f.ignored_reasons.isEmpty)).length
          = (fs.filter (fun f => f.ignored_reasons.isEmpty)).length)
  | [], i, h => absurd h (by simp)
  | x :: xs, 0, _ => by
      constructor
      · intro hx
        have hx' : x.ignored_reasons = [] := by simpa using hx
        simp [modifyIdx, List.filter_cons, ignore_isEmpty_false, hx']
      · intro hx
        have hx' : ¬x.ignored_reasons = [] := by simpa using hx
        simp [modifyIdx, List.filter_cons, ignore_isEmpty_false, hx']
  | x :: xs, n + 1, h => by
      have ih := modifyIdx_active_count r xs n (by simpa using h)
      constructor
      · intro hx
        have := ih.1 hx
        by_cases hxe : x.ignored_reasons.isEmpty <;>
          simp [modifyIdx, List.filter_cons, hxe] <;> omega
      · intro hx
        have := ih.2 hx
        by_cases hxe : x.ignored_reasons.isEmpty <;>
          simp [modifyIdx, List.filter_cons, hxe] <;> omega

theorem modifyIdx_genes_count (r : String) :
    ∀ (i : Nat) (fs : List Feature),
      ((modifyIdx (fun f => f.ignore r) i fs).filter
        (fun f => f.e_val.isSome)).length
        = (fs.filter (fun f => f.e_val.isSome)).length
  | i, [] => by cases i <;> rfl
  | 0, x :: xs => by
      have he : (x.ignore r).e_val = x.e_val := rfl
      by_cases hx : x.e_val.isSome <;>
        simp [modifyIdx, List.filter_cons, he, hx]
  | n + 1, x :: xs => by
      have ih := modifyIdx_genes_count r n xs
      by_cases hx : x.e_val.isSome <;>
        simp [modifyIdx, List.filter_cons, hx, ih]

/-- C7: `len(operon)` counts the Features with empty `ignored_reasons`;
`ignore(reason)` on an active Feature decreases this count by exactly one,
on an already-ignored Feature leaves it unchanged, and in both cases the
`all_features` and `all_genes` counts are unchanged. -/
theorem operon_len_ignore_spec (op : Operon) (i : Nat) (reason : String) :
    op.len = op._features.countP (fun f => f.ignored_reasons.isEmpty) ∧
    (op.ignoreAt i reason).all_features.length = op.all_features.length ∧
    (op.ignoreAt i reason).all_genes.length = op.all_genes.length ∧
    ∀ h : i < op._features.length,
      ((op._features.get ⟨i, h⟩).ignored_reasons = [] →
        (op.ignoreAt i reason).len + 1 = op.len) ∧
      ((op._features.get ⟨i, h⟩).ignored_reasons ≠ [] →
        (op.ignoreAt i reason).len = op.len) := by
  refine ⟨?_, ?_, ?_, ?_⟩
  · simp [Operon.len, Operon.activeFeatures, List.countP_eq_length_filter]
  · simp [Operon.ignoreAt, Operon.all_features, modifyIdx_length]
  · simpa [Operon.ignoreAt, Operon.all_genes] using
      modifyIdx_genes_count reason i op._features
  · intro h
    have := modifyIdx_active_count reason op._features i h
    exact ⟨fun hx => by
        simpa [Operon.len, Operon.activeFeatures, Operon.ignoreAt] using this.1 hx,
      fun hx => by
        simpa [Operon.len, Operon.activeFeatures, Operon.ignoreAt] using this.2 hx⟩

/-- Closed witness for C7: ignoring the first (active) Feature of the
two-cas3 Operon drops its length from 2 to 1; ignoring the (already
ignored) Feature of `opAllIgnored1` leaves its length 0. -/
theorem operon_len_ignore_spec_witness :
    ((opCas3.ignoreAt 0 "overlap").len + 1 = opCas3.len) ∧
    ((opAllIgnored1.ignoreAt 0 "again").len = opAllIgnored1.len) :=
  ⟨((operon_len_ignore_spec opCas3 0 "overlap").2.2.2 (by decide)).1 (by decide),
   ((operon_len_ignore_spec opAllIgnored1 0 "again").2.2.2 (by decide)).2 (by decide)⟩

theorem zip_all_sequences_iff :
    ∀ {xs ys : List Feature}, xs.length = ys.length →
      (((xs.zip ys).all (fun p => p.1.sequence == p.2.sequence)) = true ↔
        sequencesMatch xs ys)
  | [], [], _ => by simp [sequencesMatch]
  | [], _ :: _, h => absurd h (by simp)
  | _ :: _, [], h => absurd h (by simp)
  | x :: xs, y :: ys, h => by
      have ih := @zip_all_sequences_iff xs ys (by simpa using h)
      simp only [List.zip_cons_cons, List.all_cons, Bool.and_eq_true, beq_iff_eq,
        sequencesMatch, List.forall₂_cons] at ih ⊢
      exact and_congr_right fun _ => ih

theorem filter_name_congr (p : String → Bool) :
    ∀ {xs ys : List Feature},
      xs.map (fun f => f.name) = ys.map (fun f => f.name) →
      (xs.filter (fun f => p f.name)).map (fun f => f.name)
        = (ys.filter (fun f => p f.name)).map (fun f => f.name)
  | [], [], _ => rfl
  | [], _ :: _, h => absurd h (by simp)
  | _ :: _, [], h => absurd h (by simp)
  | x :: xs, y :: ys, h => by
      have hn : x.name = y.name := by simpa using congrArg (fun l => l.head?) h
      have ht : xs.map (fun f => f.name) = ys.map (fun f => f.name) := by
        simpa using congrArg (fun l => l.tail) h
      have ih := filter_name_congr p ht
      by_cases hp : p x.name
      · simp [List.filter_cons, hp, hn ▸ hp, hn, ih]
      · simp [List.filter_cons, hp, hn ▸ hp, ih]

theorem filter_name_length_congr (p : String → Bool) {xs ys : List Feature}
    (h : xs.map (fun f => f.name) = ys.map (fun f => f.name)) :
    (xs.filter (fun f => p f.name)).length = (ys.filter (fun f => p f.name)).length := by
  have := congrArg List.length (filter_name_congr p h)
  simpa using this

theorem approx_equal_eq (leader operon : Operon) :
    operonsAreApproximatelyEqual leader operon =
      (if getSortedFeatureNames leader = getSortedFeatureNames operon ∧
          specGapTuple leader = specGapTuple operon then
        ((specNonCrisprFeatures leader).zip (specNonCrisprFeatures operon)).all
          (fun p => p.1.sequence == p.2.sequence)
      else if getSortedFeatureNames leader = (getSortedFeatureNames operon).reverse ∧
          specGapTuple leader = (specGapTuple operon).reverse then
        ((specNonCrisprFeatures leader).zip (specNonCrisprFeatures operon).reverse).all
          (fun p => p.1.sequence == p.2.sequence)
      else false) := by
  simp only [operonsAreApproximatelyEqual, getSortedFeatureNames,
    specNonCrisprFeatures, specGapTuple, Bool.and_eq_true, beq_iff_eq]

/-- C1 (amended): the approximate-equality test returns true iff the
same-orientation clause of the spec holds, or the same-orientation
name-and-gap condition fails and the opposite-orientation clause holds
(the `elif` in the source makes the two clauses non-overlapping; the
plain disjunction of the claim is refuted by `approx_equal_claim_counterexample`). -/
theorem approx_equal_matches_amended_spec (leader operon : Operon) :
    operonsAreApproximatelyEqual leader operon = true ↔
      approxEqualSpecAmended leader operon := by
  rw [approx_equal_eq]
  by_cases hA : getSortedFeatureNames leader = getSortedFeatureNames operon ∧
      specGapTuple leader = specGapTuple operon
  · have hmapA : (sortByStart leader.activeFeatures).map (fun f => f.name) =
        (sortByStart operon.activeFeatures).map (fun f => f.name) := hA.1
    have hlen : (specNonCrisprFeatures leader).length =
        (specNonCrisprFeatures operon).length :=
      filter_name_length_congr (fun s => decide (s ≠ "CRISPR array")) hmapA
    rw [if_pos hA, zip_all_sequences_iff hlen]
    unfold approxEqualSpecAmended
    constructor
    · intro h
      exact Or.inl ⟨hA.1, hA.2, h⟩
    · rintro (⟨_, _, h⟩ | ⟨hna, _⟩)
      · exact h
      · exact absurd hA hna
  · rw [if_neg hA]
    by_cases hB : getSortedFeatureNames leader = (getSortedFeatureNames operon).reverse ∧
        specGapTuple leader = (specGapTuple operon).reverse
    · have hmap : (sortByStart leader.activeFeatures).map (fun f => f.name) =
          ((sortByStart operon.activeFeatures).reverse).map (fun f => f.name) := by
        have := hB.1
        unfold getSortedFeatureNames at this
        simpa [List.map_reverse] using this
      have hlen : (specNonCrisprFeatures leader).length =
          ((specNonCrisprFeatures operon).reverse).length := by
        have := filter_name_length_congr
          (fun s => decide (s ≠ "CRISPR array")) hmap
        unfold specNonCrisprFeatures
        simpa [List.filter_reverse] using this
      rw [if_pos hB, zip_all_sequences_iff hlen]
      unfold approxEqualSpecAmended
      constructor
      · intro h
        exact Or.inr ⟨hA, hB.1, hB.2, h⟩
      · rintro (⟨h1, h2, _⟩ | ⟨_, _, _, h⟩)
        · exact absurd ⟨h1, h2⟩ hA
        · exact h
    · rw [if_neg hB]
      unfold approxEqualSpecAmended
      constructor
      · intro h
        exact absurd h (by simp)
      · rintro (⟨h1, h2, _⟩ | ⟨_, h1, h2, _⟩)
        · exact absurd ⟨h1, h2⟩ hA
        · exact absurd ⟨h1, h2⟩ hB

/-- C1 counterexample: on the palindromic two-"a" operons (equal name
tuples, swapped sequences) the plain disjunction of the claim holds via its
opposite-orientation clause, yet the code returns false: the `elif`
branch is unreachable once the same-orientation name-and-gap condition
holds. -/
theorem approx_equal_claim_counterexample :
    approxEqualSpecClaim opPalindromeL opPalindromeR ∧
    operonsAreApproximatelyEqual opPalindromeL opPalindromeR = false := by
  constructor
  · exact Or.inr (by decide)
  · decide

/-- Closed witness for C1 at a concrete pair (an operon compared with
itself satisfies the same-orientation clause). -/
theorem approx_equal_matches_amended_spec_witness :
    operonsAreApproximatelyEqual opPalindromeL opPalindromeL = true :=
  (approx_equal_matches_amended_spec opPalindromeL opPalindromeL).mpr
    (Or.inl (by decide))

theorem forall₂_names_eq {xs ys : List Feature}
    (h : List.Forall₂ (fun f g => f.name = g.name ∧
      (f.name ≠ "CRISPR array" → f = g)) xs ys) :
    xs.map (fun f => f.name) = ys.map (fun f => f.name) := by
  induction h with
  | nil => rfl
  | cons h1 _ ih => simp [h1.1, ih]

theorem forall₂_filter_eq {xs ys : List Feature}
    (h : List.Forall₂ (fun f g => f.name = g.name ∧
      (f.name ≠ "CRISPR array" → f = g)) xs ys) :
    xs.filter (fun f => f.name ≠ "CRISPR array")
      = ys.filter (fun f => f.name ≠ "CRISPR array") := by
  induction h with
  | nil => rfl
  | @cons x y l₁ l₂ h1 _ ih =>
      have ih' : List.filter (fun f => !decide (f.name = "CRISPR array")) l₁ =
          List.filter (fun f => !decide (f.name = "CRISPR array")) l₂ := by
        simpa using ih
      by_cases hc : x.name = "CRISPR array"
      · simp [List.filter_cons, hc, h1.1 ▸ hc, ih']
      · simp [List.filter_cons, hc, h1.1 ▸ hc, ih', h1.2 hc]

theorem zip_self_all_sequences (xs : List Feature) :
    ((xs.zip xs).all (fun p => p.1.sequence == p.2.sequence)) = true := by
  induction xs with
  | nil => rfl
  | cons x xs ih => simp [List.zip_cons_cons, ih]

/-- C9 (amended): two Operons whose sorted active feature lists
correspond pointwise with equal names and with every non-CRISPR Feature
equal — i.e. they are identical up to CRISPR-array coordinates and the
coordinate change does not alter the sorted feature order — are judged
approximately equal (the original unconditional claim is refuted by
`crispr_coordinates_counterexample`). -/
theorem crispr_coordinates_amended (leader operon : Operon)
    (h : List.Forall₂ (fun f g => f.name = g.name ∧
      (f.name ≠ "CRISPR array" → f = g))
      (sortByStart leader.activeFeatures) (sortByStart operon.activeFeatures)) :
    operonsAreApproximatelyEqual leader operon = true := by
  have hnames : getSortedFeatureNames leader = getSortedFeatureNames operon :=
    forall₂_names_eq h
  have hfilter : specNonCrisprFeatures leader = specNonCrisprFeatures operon :=
    forall₂_filter_eq h
  have hgaps : specGapTuple leader = specGapTuple operon := by
    unfold specGapTuple
    rw [hfilter]
  rw [approx_equal_eq, if_pos ⟨hnames, hgaps⟩, hfilter]
  exact zip_self_all_sequences _

/-- C9 counterexample: `opCrisprA` and `opCrisprB` are identical except
for the coordinates of their CRISPR array, but moving the array between
the two genes reorders the sorted name tuple, and the test returns
false. -/
theorem crispr_coordinates_counterexample :
    opCrisprA.contig = opCrisprB.contig ∧
    opCrisprA.contig_filename = opCrisprB.contig_filename ∧
    opCrisprA.start = opCrisprB.start ∧
    opCrisprA.«end» = opCrisprB.«end» ∧
    List.Forall₂ (fun f g => f.name = g.name ∧
      (f.name ≠ "CRISPR array" → f = g))
      opCrisprA._features opCrisprB._features ∧
    operonsAreApproximatelyEqual opCrisprA opCrisprB = false := by
  refine ⟨rfl, rfl, rfl, rfl, by decide, by decide⟩

/-- Closed witness for C9: changing only the extent of the CRISPR array
(40..50 to 40..55), which keeps the sorted order, preserves approximate
equality. -/
theorem crispr_coordinates_amended_witness :
    operonsAreApproximatelyEqual opCrisprA opCrisprC = true :=
  crispr_coordinates_amended opCrisprA opCrisprC (by decide)

/-! ### Clustering lemmas -/

theorem addToBin_values_perm (key : List String) (op : Operon) :
    ∀ bins : Bins, ((addToBin key op bins).map (fun b => b.2)).flatten.Perm
      (op :: (bins.map (fun b => b.2)).flatten)
  | [] => by simp [addToBin]
  | (k, ops) :: rest => by
      by_cases hk : k = key
      · simp only [addToBin, if_pos hk, List.map_cons, List.flatten_cons]
        rw [List.append_assoc]
        exact List.perm_middle
      · simp only [addToBin, if_neg hk, List.map_cons, List.flatten_cons]
        exact ((addToBin_values_perm key op rest).append_left ops).trans
          List.perm_middle

theorem clusterStep_eq (bins : Bins) (op : Operon) :
    clusterStep bins op =
      if hasKey bins (getSortedFeatureNames op).reverse
      then addToBin (getSortedFeatureNames op).reverse op bins
      else addToBin (getSortedFeatureNames op) op bins := by
  unfold clusterStep
  by_cases hr : hasKey bins (getSortedFeatureNames op).reverse
  · rw [if_neg (by simpa using hr), if_pos hr]
  · rw [if_pos (by simpa using hr), if_neg hr]

theorem clusterStep_values_perm (bins : Bins) (op : Operon) :
    ((clusterStep bins op).map (fun b => b.2)).flatten.Perm
      (op :: (bins.map (fun b => b.2)).flatten) := by
  rw [clusterStep_eq]
  by_cases hr : hasKey bins (getSortedFeatureNames op).reverse
  · rw [if_pos hr]
    exact addToBin_values_perm _ op bins
  · rw [if_neg hr]
    exact addToBin_values_perm _ op bins

theorem foldl_clusterStep_values_perm (operons : List Operon) :
    ∀ bins : Bins, ((operons.foldl clusterStep bins).map (fun b => b.2)).flatten.Perm
      ((bins.map (fun b => b.2)).flatten ++ operons) := by
  induction operons with
  | nil => intro bins; simp
  | cons op rest ih =>
      intro bins
      refine ((ih (clusterStep bins op)).trans ?_)
      refine ((clusterStep_values_perm bins op).append_right rest).trans ?_
      simpa using List.perm_middle.symm

theorem cluster_values_perm (operons : List Operon) :
    (((cluster_operons_by_feature_order operons).map (fun b => b.2)).flatten).Perm
      operons := by
  simpa using foldl_clusterStep_values_perm operons []

theorem addToBin_keys (key : List String) (op : Operon) :
    ∀ bins : Bins, (addToBin key op bins).map (fun b => b.1) =
      if hasKey bins key then bins.map (fun b => b.1)
      else bins.map (fun b => b.1) ++ [key]
  | [] => by simp [addToBin, hasKey]
  | (k, ops) :: rest => by
      by_cases hk : k = key
      · simp [addToBin, hasKey, hk]
      · have := addToBin_keys key op rest
        by_cases hr : hasKey rest key <;>
          simp_all [addToBin, hasKey, hk]

/-- The structural invariant of the bins map: keys are distinct, a key
and its (distinct) reverse never coexist, and every operon in a bucket
has the bucket key or its reverse as forward key. -/
def BinsInv (bins : Bins) : Prop :=
  ((bins.map (fun b => b.1)).Nodup ∧
    ∀ k ∈ bins.map (fun b => b.1), k.reverse ∈ bins.map (fun b => b.1) →
      k.reverse = k) ∧
  ∀ b ∈ bins, ∀ o ∈ b.2, getSortedFeatureNames o = b.1 ∨
    getSortedFeatureNames o = b.1.reverse

theorem bucketInv_addToBin {bins : Bins} {key : List String} {op : Operon}
    (h : ∀ b ∈ bins, ∀ o ∈ b.2, getSortedFeatureNames o = b.1 ∨
      getSortedFeatureNames o = b.1.reverse)
    (hkey : getSortedFeatureNames op = key ∨
      getSortedFeatureNames op = key.reverse) :
    ∀ b ∈ addToBin key op bins, ∀ o ∈ b.2, getSortedFeatureNames o = b.1 ∨
      getSortedFeatureNames o = b.1.reverse := by
  induction bins with
  | nil =>
      intro b hb o ho
      simp [addToBin] at hb
      subst hb
      simp at ho
      subst ho
      exact hkey
  | cons hd rest ih =>
      intro b hb o ho
      by_cases hk : hd.1 = key
      · simp only [addToBin, hk, if_pos rfl] at hb
        rcases List.mem_cons.mp hb with hb | hb
        · subst hb
          simp only at ho
          rcases List.mem_append.mp ho with ho | ho
          · have := h hd (List.mem_cons_self hd rest) o
            simp only [hk] at this ⊢
            exact this ho
          · simp at ho
            subst ho
            exact hkey
        · exact h b (List.mem_cons_of_mem hd hb) o ho
      · simp only [addToBin, if_neg hk] at hb
        rcases List.mem_cons.mp hb with hb | hb
        · subst hb
          exact h hd (List.mem_cons_self hd rest) o ho
        · exact ih (fun b' hb' => h b' (List.mem_cons_of_mem hd hb')) b hb o ho

theorem hasKey_iff (bins : Bins) (k : List String) :
    hasKey bins k = true ↔ k ∈ bins.map (fun b => b.1) := by
  simp [hasKey, List.any_eq_true, List.mem_map]

theorem binsInv_clusterStep {bins : Bins} (h : BinsInv bins) (op : Operon) :
    BinsInv (clusterStep bins op) := by
  obtain ⟨⟨hnd, hrev⟩, hbuck⟩ := h
  unfold clusterStep
  by_cases hr : hasKey bins (getSortedFeatureNames op).reverse
  · rw [if_neg (by simpa using hr)]
    have hkeys := addToBin_keys (getSortedFeatureNames op).reverse op bins
    rw [if_pos hr] at hkeys
    refine ⟨⟨by rw [hkeys]; exact hnd, by rw [hkeys]; exact hrev⟩, ?_⟩
    exact bucketInv_addToBin hbuck (Or.inr (by rw [List.reverse_reverse]))
  · rw [if_pos (by simpa using hr)]
    have hrm : (getSortedFeatureNames op).reverse ∉ bins.map (fun b => b.1) :=
      fun hm => hr ((hasKey_iff bins _).mpr hm)
    have hkeys := addToBin_keys (getSortedFeatureNames op) op bins
    refine ⟨⟨?_, ?_⟩, bucketInv_addToBin hbuck (Or.inl rfl)⟩
    · rw [hkeys]
      by_cases hf : hasKey bins (getSortedFeatureNames op)
      · rw [if_pos hf]
        exact hnd
      · rw [if_neg hf]
        have hfm : getSortedFeatureNames op ∉ bins.map (fun b => b.1) :=
          fun hm => hf ((hasKey_iff bins _).mpr hm)
        refine List.Nodup.append hnd (List.nodup_singleton _) ?_
        intro k hk hk'
        simp only [List.mem_singleton] at hk'
        subst hk'
        exact hfm hk
    · rw [hkeys]
      by_cases hf : hasKey bins (getSortedFeatureNames op)
      · rw [if_pos hf]
        exact hrev
      · rw [if_neg hf]
        intro k hk hkr
        rcases List.mem_append.mp hk with hk | hk
        · rcases List.mem_append.mp hkr with hkr | hkr
          · exact hrev k hk hkr
          · simp only [List.mem_singleton] at hkr
            exfalso
            apply hrm
            rw [← hkr, List.reverse_reverse]
            exact hk
        · simp only [List.mem_singleton] at hk
          subst hk
          rcases List.mem_append.mp hkr with hkr | hkr
          · exact absurd hkr hrm
          · simpa using hkr

theorem cluster_binsInv (operons : List Operon) :
    BinsInv (cluster_operons_by_feature_order operons) := by
  unfold cluster_operons_by_feature_order
  have step : ∀ bins, BinsInv bins → BinsInv (operons.foldl clusterStep bins) := by
    induction operons with
    | nil => exact fun bins h => h
    | cons op rest ih => exact fun bins h => ih _ (binsInv_clusterStep h op)
  exact step [] ⟨⟨by simp, by simp⟩, by simp⟩

theorem getBucket_addToBin (key : List String) (op : Operon) :
    ∀ bins : Bins, getBucket (addToBin key op bins) key
      = getBucket bins key ++ [op]
  | [] => by simp [addToBin, getBucket]
  | (k, ops) :: rest => by
      by_cases hk : k = key
      · subst hk
        simp [addToBin, getBucket]
      · have hbeq : (k == key) = false := by simpa using hk
        have ih := getBucket_addToBin key op rest
        simp only [addToBin, if_neg hk, getBucket, List.find?_cons, hbeq] at ih ⊢
        exact ih

/-- C2: clustering partitions the input — the bucket lists together are a
permutation of the input (every Operon lands in exactly one bucket and
buckets are pairwise disjoint), bucket keys are distinct — and at its
processing step each Operon is appended to the bucket of the reverse of
its forward key `getSortedFeatureNames` when that reverse is already a
map key, otherwise to the bucket of its forward key. -/
theorem cluster_partition_and_filing (operons : List Operon) :
    (((cluster_operons_by_feature_order operons).map (fun b => b.2)).flatten).Perm
      operons ∧
    ((cluster_operons_by_feature_order operons).map (fun b => b.1)).Nodup ∧
    ∀ pre op post, operons = pre ++ op :: post →
      getBucket (cluster_operons_by_feature_order (pre ++ [op]))
          (if hasKey (cluster_operons_by_feature_order pre)
              (getSortedFeatureNames op).reverse
            then (getSortedFeatureNames op).reverse
            else getSortedFeatureNames op)
        = getBucket (cluster_operons_by_feature_order pre)
            (if hasKey (cluster_operons_by_feature_order pre)
                (getSortedFeatureNames op).reverse
              then (getSortedFeatureNames op).reverse
              else getSortedFeatureNames op) ++ [op] := by
  refine ⟨cluster_values_perm operons, (cluster_binsInv operons).1.1, ?_⟩
  intro pre op post _
  have hfold : cluster_operons_by_feature_order (pre ++ [op])
      = clusterStep (cluster_operons_by_feature_order pre) op := by
    unfold cluster_operons_by_feature_order
    rw [List.foldl_append]
    rfl
  rw [hfold, clusterStep_eq]
  set key := if hasKey (cluster_operons_by_feature_order pre)
      (getSortedFeatureNames op).reverse
    then (getSortedFeatureNames op).reverse
    else getSortedFeatureNames op with hkey
  by_cases hr : hasKey (cluster_operons_by_feature_order pre)
      (getSortedFeatureNames op).reverse
  · have hk : key = (getSortedFeatureNames op).reverse := hkey.trans (if_pos hr)
    rw [if_pos hr, hk]
    exact getBucket_addToBin _ op _
  · have hk : key = getSortedFeatureNames op := hkey.trans (if_neg hr)
    rw [if_neg hr, hk]
    exact getBucket_addToBin _ op _

/-- Closed witness for C2: the second one-gene operon is appended to the
bucket the first one created. -/
theorem cluster_partition_and_filing_witness :
    getBucket (cluster_operons_by_feature_order [opExactA, opExactB])
        (if hasKey (cluster_operons_by_feature_order [opExactA])
            (getSortedFeatureNames opExactB).reverse
          then (getSortedFeatureNames opExactB).reverse
          else getSortedFeatureNames opExactB)
      = getBucket (cluster_operons_by_feature_order [opExactA])
          (if hasKey (cluster_operons_by_feature_order [opExactA])
              (getSortedFeatureNames opExactB).reverse
            then (getSortedFeatureNames opExactB).reverse
            else getSortedFeatureNames opExactB) ++ [opExactB] :=
  (cluster_partition_and_filing [opExactA, opExactB]).2.2 [opExactA] opExactB [] rfl

/-! ### Grouping lemmas -/

theorem insertIntoGroups_members_perm (eq : Operon → Operon → Bool) (op : Operon) :
    ∀ groups : List Group,
      ((insertIntoGroups eq op groups).map groupMembers).flatten.Perm
        (op :: (groups.map groupMembers).flatten)
  | [] => by simp [insertIntoGroups, groupMembers]
  | g :: rest => by
      by_cases hg : eq g.1 op
      · simp only [insertIntoGroups, if_pos hg, List.map_cons, List.flatten_cons,
          groupMembers, List.cons_append, List.append_assoc]
        exact ((List.perm_middle).cons g.1).trans (List.Perm.swap op g.1 _)
      · simp only [insertIntoGroups, if_neg hg, List.map_cons, List.flatten_cons]
        exact ((insertIntoGroups_members_perm eq op rest).append_left
          (groupMembers g)).trans List.perm_middle

theorem foldl_insert_members_perm (eq : Operon → Operon → Bool)
    (ops : List Operon) :
    ∀ groups : List Group,
      ((ops.foldl (fun gs op => sortGroups (insertIntoGroups eq op gs)) groups).map
        groupMembers).flatten.Perm ((groups.map groupMembers).flatten ++ ops) := by
  induction ops with
  | nil => intro groups; simp
  | cons op rest ih =>
      intro groups
      refine (ih _).trans ?_
      have hsort : ((sortGroups (insertIntoGroups eq op groups)).map
          groupMembers).flatten.Perm
            (((insertIntoGroups eq op groups)).map groupMembers).flatten :=
        ((List.perm_insertionSort _ _).map groupMembers).flatten
      refine (hsort.append_right rest).trans ?_
      refine (((insertIntoGroups_members_perm eq op groups).append_right rest)).trans ?_
      simpa using List.perm_middle.symm

theorem processCluster_members_perm (eq : Operon → Operon → Bool)
    (ops : List Operon) :
    ((processCluster eq ops).map groupMembers).flatten.Perm ops := by
  simpa [processCluster] using foldl_insert_members_perm eq ops []

theorem processCluster_leader_mem (eq : Operon → Operon → Bool)
    {ops : List Operon} {g : Group} (hg : g ∈ processCluster eq ops) :
    g.1 ∈ ops := by
  have hmem : g.1 ∈ ((processCluster eq ops).map groupMembers).flatten := by
    refine List.mem_flatten.mpr ⟨groupMembers g, List.mem_map_of_mem _ hg, ?_⟩
    exact List.mem_cons_self _ _
  exact (processCluster_members_perm eq ops).mem_iff.mp hmem

theorem insertIntoGroups_leaders (eq : Operon → Operon → Bool) (op : Operon) :
    ∀ groups : List Group,
      (insertIntoGroups eq op groups).map (fun g => g.1)
          = groups.map (fun g => g.1) ∨
      ((insertIntoGroups eq op groups).map (fun g => g.1)
          = groups.map (fun g => g.1) ++ [op] ∧
        ∀ x ∈ groups.map (fun g => g.1), eq x op = false)
  | [] => Or.inr ⟨rfl, by simp⟩
  | g :: rest => by
      by_cases hg : eq g.1 op
      · exact Or.inl (by simp [insertIntoGroups, if_pos hg])
      · rcases insertIntoGroups_leaders eq op rest with h | ⟨h, hall⟩
        · exact Or.inl (by simp [insertIntoGroups, if_neg hg, h])
        · refine Or.inr ⟨by simp [insertIntoGroups, if_neg hg, h], ?_⟩
          intro x hx
          rcases List.mem_cons.mp hx with hx | hx
          · subst hx
            exact Bool.eq_false_iff.mpr hg
          · exact hall x hx

theorem insertIntoGroups_leaders_pairwise (eq : Operon → Operon → Bool)
    (hsymm : ∀ a b, eq a b = true → eq b a = true) (op : Operon)
    (groups : List Group)
    (h : List.Pairwise (fun x y => eq x y = false ∧ eq y x = false)
      (groups.map (fun g => g.1))) :
    List.Pairwise (fun x y => eq x y = false ∧ eq y x = false)
      ((insertIntoGroups eq op groups).map (fun g => g.1)) := by
  rcases insertIntoGroups_leaders eq op groups with hl | ⟨hl, hall⟩
  · rw [hl]
    exact h
  · rw [hl]
    refine List.pairwise_append.mpr ⟨h, List.pairwise_singleton _ _, ?_⟩
    intro x hx y hy
    rcases List.mem_singleton.mp hy with rfl
    refine ⟨hall x hx, ?_⟩
    cases hop : eq y x with
    | false => rfl
    | true => exact absurd (hsymm y x hop) (by simp [hall x hx])

theorem sortGroups_leaders_perm (groups : List Group) :
    ((sortGroups groups).map (fun g => g.1)).Perm
      (groups.map (fun g => g.1)) :=
  (List.perm_insertionSort _ groups).map _

theorem processCluster_leaders_pairwise (eq : Operon → Operon → Bool)
    (hsymm : ∀ a b, eq a b = true → eq b a = true) (ops : List Operon) :
    List.Pairwise (fun x y => eq x y = false ∧ eq y x = false)
      ((processCluster eq ops).map (fun g => g.1)) := by
  have hstep : ∀ groups : List Group,
      List.Pairwise (fun x y => eq x y = false ∧ eq y x = false)
        (groups.map (fun g => g.1)) →
      List.Pairwise (fun x y => eq x y = false ∧ eq y x = false)
        ((ops.foldl (fun gs op => sortGroups (insertIntoGroups eq op gs)) groups).map
          (fun g => g.1)) := by
    induction ops with
    | nil => exact fun groups h => h
    | cons op rest ih =>
        intro groups h
        refine ih _ ?_
        have hsym : ∀ {x y : Operon},
            (eq x y = false ∧ eq y x = false) →
            (eq y x = false ∧ eq x y = false) := fun h => ⟨h.2, h.1⟩
        exact ((sortGroups_leaders_perm _).pairwise_iff hsym).mpr
          (insertIntoGroups_leaders_pairwise eq hsymm op groups h)
  exact hstep [] (by simp)

theorem sortGroups_sorted (groups : List Group) :
    List.Pairwise (fun g h => groupSize h ≤ groupSize g) (sortGroups groups) := by
  haveI : IsTotal Group (fun g h => groupSize h ≤ groupSize g) :=
    ⟨fun a b => (le_total (groupSize b) (groupSize a))⟩
  haveI : IsTrans Group (fun g h => groupSize h ≤ groupSize g) :=
    ⟨fun _ _ _ hab hbc => le_trans hbc hab⟩
  exact List.sorted_insertionSort _ groups

theorem processCluster_sorted (eq : Operon → Operon → Bool) (ops : List Operon) :
    List.Pairwise (fun g h => groupSize h ≤ groupSize g) (processCluster eq ops) := by
  have hstep : ∀ groups : List Group,
      List.Pairwise (fun g h => groupSize h ≤ groupSize g) groups →
      List.Pairwise (fun g h => groupSize h ≤ groupSize g)
        (ops.foldl (fun gs op => sortGroups (insertIntoGroups eq op gs)) groups) := by
    induction ops with
    | nil => exact fun groups h => h
    | cons op rest ih => exact fun groups _ => ih _ (sortGroups_sorted _)
  exact hstep [] (by simp)

theorem insertIntoGroups_all_new (eq : Operon → Operon → Bool) (op : Operon) :
    ∀ groups : List Group, (∀ g ∈ groups, eq g.1 op = false) →
      insertIntoGroups eq op groups = groups ++ [(op, [])]
  | [], _ => rfl
  | g :: rest, h => by
      have hg : eq g.1 op = false := h g (List.mem_cons_self g rest)
      simp only [insertIntoGroups, hg, Bool.false_eq_true, if_false,
        List.cons_append, List.cons.injEq, true_and]
      exact insertIntoGroups_all_new eq op rest
        (fun g' hg' => h g' (List.mem_cons_of_mem g hg'))

theorem sortGroups_of_singletons (groups : List Group)
    (h : ∀ g ∈ groups, g.2 = []) : sortGroups groups = groups := by
  refine List.Sorted.insertionSort_eq ?_
  have : ∀ g ∈ groups, ∀ g' ∈ groups, groupSize g' ≤ groupSize g := by
    intro g hg g' hg'
    have h1 : groupSize g = 1 := by simp [groupSize, groupMembers, h g hg]
    have h2 : groupSize g' = 1 := by simp [groupSize, groupMembers, h g' hg']
    omega
  exact List.pairwise_iff_forall_sublist.mpr
    (fun hsub => this _ (hsub.subset (by simp)) _ (hsub.subset (by simp)))

theorem foldl_insert_all_new (eq : Operon → Operon → Bool) :
    ∀ (ops : List Operon) (groups : List Group),
      (∀ g ∈ groups, ∀ o ∈ ops, eq g.1 o = false) →
      List.Pairwise (fun a b => eq a b = false) ops →
      (∀ g ∈ groups, g.2 = []) →
      ops.foldl (fun gs op => sortGroups (insertIntoGroups eq op gs)) groups
        = groups ++ ops.map (fun o => (o, []))
  | [], groups, _, _, _ => by simp
  | op :: rest, groups, hcross, hpw, hsing => by
      have hnew : insertIntoGroups eq op groups = groups ++ [(op, [])] :=
        insertIntoGroups_all_new eq op groups
          (fun g hg => hcross g hg op (List.mem_cons_self op rest))
      have hsing' : ∀ g ∈ groups ++ [(op, [])], g.2 = [] := by
        intro g hg
        rcases List.mem_append.mp hg with hg | hg
        · exact hsing g hg
        · simp only [List.mem_singleton] at hg
          rw [hg]
      have hsorted : sortGroups (insertIntoGroups eq op groups)
          = groups ++ [(op, [])] := by
        rw [hnew]
        exact sortGroups_of_singletons _ hsing'
      have hcross' : ∀ g ∈ groups ++ [(op, [])], ∀ o ∈ rest, eq g.1 o = false := by
        intro g hg o ho
        rcases List.mem_append.mp hg with hg | hg
        · exact hcross g hg o (List.mem_cons_of_mem op ho)
        · simp only [List.mem_singleton] at hg
          rw [hg]
          exact List.rel_of_pairwise_cons hpw ho
      have ih := foldl_insert_all_new eq rest (groups ++ [(op, [])]) hcross'
        (List.Pairwise.of_cons hpw) hsing'
      simp only [List.foldl_cons, hsorted, ih, List.map_cons,
        List.append_assoc, List.singleton_append]

theorem processCluster_of_pairwise_false (eq : Operon → Operon → Bool)
    (ops : List Operon) (h : List.Pairwise (fun a b => eq a b = false) ops) :
    processCluster eq ops = ops.map (fun o => (o, [])) := by
  simpa [processCluster] using
    foldl_insert_all_new eq ops [] (by simp) h (by simp)

theorem processCluster_singleton (eq : Operon → Operon → Bool) (op : Operon) :
    processCluster eq [op] = [(op, [])] := rfl

theorem dedupCluster_eq_leaders (eq : Operon → Operon → Bool) (ops : List Operon) :
    dedupCluster eq ops = (processCluster eq ops).map (fun g => g.1) := by
  unfold dedupCluster
  by_cases h : ops.length = 1
  · rw [if_pos h]
    obtain ⟨x, rfl⟩ := List.length_eq_one.mp h
    rfl
  · rw [if_neg h]

theorem foldl_append_eq_flatten {α β : Type} (f : α → List β) :
    ∀ (l : List α) (acc : List β),
      l.foldl (fun acc b => acc ++ f b) acc = acc ++ (l.map f).flatten
  | [], acc => by simp
  | x :: xs, acc => by
      simp [foldl_append_eq_flatten f xs, List.append_assoc]

theorem dedup_approx_eq_flatten (operons : List Operon) :
    deduplicate_operons_approximate operons
      = ((cluster_operons_by_feature_order operons).map
          (fun b => dedupCluster operonsAreApproximatelyEqual b.2)).flatten := by
  unfold deduplicate_operons_approximate
  simpa using foldl_append_eq_flatten
    (fun b : List String × List Operon =>
      dedupCluster operonsAreApproximatelyEqual b.2)
    (cluster_operons_by_feature_order operons) []

theorem group_similar_eq_flatten (seq : Operon → String) (rc : String → String)
    (operons : List Operon) :
    group_similar_operons seq rc operons
      = ((cluster_operons_by_feature_order operons).map
          (fun b => dedupCluster (exactSequenceMatch seq rc) b.2)).flatten := by
  unfold group_similar_operons
  simpa using foldl_append_eq_flatten
    (fun b : List String × List Operon =>
      dedupCluster (exactSequenceMatch seq rc) b.2)
    (cluster_operons_by_feature_order operons) []

theorem mem_insertIntoGroups (eq : Operon → Operon → Bool) (op : Operon) :
    ∀ {groups : List Group} {g' : Group}, g' ∈ insertIntoGroups eq op groups →
      g' ∈ groups ∨ (∃ g ∈ groups, g' = (g.1, g.2 ++ [op])) ∨ g' = (op, [])
  | [], g', h => by
      simp only [insertIntoGroups, List.mem_singleton] at h
      exact Or.inr (Or.inr h)
  | g :: rest, g', h => by
      by_cases hg : eq g.1 op
      · simp only [insertIntoGroups, if_pos hg, List.mem_cons] at h
        rcases h with h | h
        · exact Or.inr (Or.inl ⟨g, List.mem_cons_self g rest, h⟩)
        · exact Or.inl (List.mem_cons_of_mem g h)
      · simp only [insertIntoGroups, if_neg hg, List.mem_cons] at h
        rcases h with h | h
        · exact Or.inl (h ▸ List.mem_cons_self g rest)
        · rcases mem_insertIntoGroups eq op h with h | ⟨g₀, hg₀, he⟩ | h
          · exact Or.inl (List.mem_cons_of_mem g h)
          · exact Or.inr (Or.inl ⟨g₀, List.mem_cons_of_mem g hg₀, he⟩)
          · exact Or.inr (Or.inr h)

theorem foldl_insert_members_sublist (eq : Operon → Operon → Bool) :
    ∀ (ops : List Operon) (groups : List Group) (processed : List Operon),
      (∀ g ∈ groups, (groupMembers g).Sublist processed) →
      ∀ g ∈ ops.foldl (fun gs op => sortGroups (insertIntoGroups eq op gs)) groups,
        (groupMembers g).Sublist (processed ++ ops)
  | [], groups, processed, h => by simpa using h
  | op :: rest, groups, processed, h => by
      intro g hg
      have hstep : ∀ g' ∈ sortGroups (insertIntoGroups eq op groups),
          (groupMembers g').Sublist (processed ++ [op]) := by
        intro g' hg'
        have hg'' : g' ∈ insertIntoGroups eq op groups :=
          (List.perm_insertionSort _ _).mem_iff.mp hg'
        rcases mem_insertIntoGroups eq op hg'' with hm | ⟨g₀, hg₀, he⟩ | he
        · exact ((h g' hm).trans (List.sublist_append_left _ _))
        · rw [he]
          show (g₀.1 :: (g₀.2 ++ [op])).Sublist (processed ++ [op])
          have : (g₀.1 :: g₀.2 ++ [op]).Sublist (processed ++ [op]) :=
            (h g₀ hg₀).append (List.Sublist.refl [op])
          simpa using this
        · rw [he]
          show [op].Sublist (processed ++ [op])
          exact List.sublist_append_right _ _
      have := foldl_insert_members_sublist eq rest
        (sortGroups (insertIntoGroups eq op groups)) (processed ++ [op]) hstep g hg
      simpa using this

theorem processCluster_members_sublist (eq : Operon → Operon → Bool)
    (ops : List Operon) :
    ∀ g ∈ processCluster eq ops, (groupMembers g).Sublist ops := by
  intro g hg
  simpa using foldl_insert_members_sublist eq ops [] [] (by simp) g hg

/-- C3 (amended): `group_similar_operons` emits, per cluster and in
cluster map order, exactly one representative per group — the group
leader, its first-inserted member (the member list of each group is a
subsequence of the cluster, leader first) — and the groups of a cluster
partition it; but the output order of leaders within a cluster is by
descending group size (stable on ties), not group insertion order, which
`group_similar_output_order_counterexample` refutes. -/
theorem group_similar_grouping_spec (seq : Operon → String) (rc : String → String)
    (operons : List Operon) :
    group_similar_operons seq rc operons
      = ((cluster_operons_by_feature_order operons).map
          (fun b => (processCluster (exactSequenceMatch seq rc) b.2).map
            (fun g => g.1))).flatten ∧
    ∀ b ∈ cluster_operons_by_feature_order operons,
      ((processCluster (exactSequenceMatch seq rc) b.2).map
        groupMembers).flatten.Perm b.2 ∧
      List.Pairwise (fun g h => groupSize h ≤ groupSize g)
        (processCluster (exactSequenceMatch seq rc) b.2) ∧
      ∀ g ∈ processCluster (exactSequenceMatch seq rc) b.2,
        (groupMembers g).Sublist b.2 := by
  constructor
  · rw [group_similar_eq_flatten]
    exact congrArg List.flatten (List.map_congr_left
      (fun b _ => dedupCluster_eq_leaders _ b.2))
  · intro b _
    exact ⟨processCluster_members_perm _ b.2, processCluster_sorted _ b.2,
      processCluster_members_sublist _ b.2⟩

/-- C3 counterexample: with the lone operon on contig A processed first,
the A-group is created before the B-group, yet the output lists contig
the leader of contig B first because its group is larger after the re-sort by
descending size. -/
theorem group_similar_output_order_counterexample :
    processCluster (exactSequenceMatch seqExact rcExact) [opExactA, opExactB]
        = [(opExactA, []), (opExactB, [])] ∧
    processCluster (exactSequenceMatch seqExact rcExact)
        [opExactA, opExactB, opExactB2]
        = [(opExactB, [opExactB2]), (opExactA, [])] ∧
    group_similar_operons seqExact rcExact [opExactA, opExactB, opExactB2]
        = [opExactB, opExactA] := by
  refine ⟨by decide, by decide, by decide⟩

/-- Closed witness for C3 at the concrete three-operon input. -/
theorem group_similar_grouping_spec_witness :
    ((processCluster (exactSequenceMatch seqExact rcExact)
        [opExactA, opExactB, opExactB2]).map groupMembers).flatten.Perm
      [opExactA, opExactB, opExactB2] := by
  have h := (group_similar_grouping_spec seqExact rcExact
    [opExactA, opExactB, opExactB2]).2
    ((getSortedFeatureNames opExactA), [opExactA, opExactB, opExactB2])
    (by decide)
  exact h.1

theorem getSortedFeatureNames_of_no_active {op : Operon}
    (h : op.activeFeatures = []) : getSortedFeatureNames op = [] := by
  simp [getSortedFeatureNames, sortByStart, h]

theorem approx_equal_of_no_active {a b : Operon} (ha : a.activeFeatures = [])
    (hb : b.activeFeatures = []) :
    operonsAreApproximatelyEqual a b = true := by
  rw [approx_equal_eq]
  have hna : getSortedFeatureNames a = [] := getSortedFeatureNames_of_no_active ha
  have hnb : getSortedFeatureNames b = [] := getSortedFeatureNames_of_no_active hb
  have hfa : specNonCrisprFeatures a = [] := by
    simp [specNonCrisprFeatures, sortByStart, ha]
  have hfb : specNonCrisprFeatures b = [] := by
    simp [specNonCrisprFeatures, sortByStart, hb]
  rw [if_pos ⟨hna.trans hnb.symm, by simp [specGapTuple, hfa, hfb, featureGaps]⟩,
    hfa, hfb]
  rfl

theorem cluster_all_ignored :
    ∀ (ops : List Operon), (∀ op ∈ ops, getSortedFeatureNames op = []) →
      ∀ acc : List Operon, ops.foldl clusterStep [([], acc)] = [([], acc ++ ops)]
  | [], _, acc => by simp
  | op :: rest, h, acc => by
      have hop : getSortedFeatureNames op = [] := h op (List.mem_cons_self op rest)
      have hstep : clusterStep [([], acc)] op = [([], acc ++ [op])] := by
        rw [clusterStep_eq, hop]
        simp [hasKey, addToBin]
      rw [List.foldl_cons, hstep,
        cluster_all_ignored rest (fun o ho => h o (List.mem_cons_of_mem op ho))
          (acc ++ [op])]
      simp

theorem foldl_insert_all_match (eq : Operon → Operon → Bool) :
    ∀ (ops : List Operon) (leader : Operon) (members : List Operon),
      (∀ o ∈ ops, eq leader o = true) →
      ops.foldl (fun gs op => sortGroups (insertIntoGroups eq op gs))
          [(leader, members)]
        = [(leader, members ++ ops)]
  | [], leader, members, _ => by simp
  | op :: rest, leader, members, h => by
      have hop : eq leader op = true := h op (List.mem_cons_self op rest)
      have hstep : sortGroups (insertIntoGroups eq op [(leader, members)])
          = [(leader, members ++ [op])] := by
        simp [insertIntoGroups, hop, sortGroups]
      rw [List.foldl_cons, hstep,
        foldl_insert_all_match eq rest leader (members ++ [op])
          (fun o ho => h o (List.mem_cons_of_mem op ho))]
      simp

/-- C10: approximate deduplication collapses any nonempty collection of
fully-ignored Operons (no active Features) to its first element alone:
they all share the empty clustering key and are all judged approximately
equal, regardless of contigs, positions, or feature contents. -/
theorem fully_ignored_collapse (operons : List Operon) (hne : operons ≠ [])
    (hign : ∀ op ∈ operons, op.activeFeatures = []) :
    deduplicate_operons_approximate operons = operons.take 1 := by
  obtain ⟨op, rest, rfl⟩ := List.exists_cons_of_ne_nil hne
  have hnames : ∀ o ∈ op :: rest, getSortedFeatureNames o = [] :=
    fun o ho => getSortedFeatureNames_of_no_active (hign o ho)
  have hcluster : cluster_operons_by_feature_order (op :: rest)
      = [([], op :: rest)] := by
    unfold cluster_operons_by_feature_order
    have hstep1 : clusterStep [] op = [([], [op])] := by
      rw [clusterStep_eq, hnames op (List.mem_cons_self op rest)]
      simp [hasKey, addToBin]
    rw [List.foldl_cons, hstep1,
      cluster_all_ignored rest
        (fun o ho => hnames o (List.mem_cons_of_mem op ho)) [op]]
    rfl
  rw [dedup_approx_eq_flatten, hcluster]
  cases rest with
  | nil => rfl
  | cons op2 rest2 =>
      have hlen : (op :: op2 :: rest2).length ≠ 1 := by simp
      have hproc : processCluster operonsAreApproximatelyEqual
          (op :: op2 :: rest2) = [(op, op2 :: rest2)] := by
        unfold processCluster
        have hstep1 : sortGroups (insertIntoGroups operonsAreApproximatelyEqual
            op []) = [(op, [])] := rfl
        rw [List.foldl_cons, hstep1,
          foldl_insert_all_match operonsAreApproximatelyEqual (op2 :: rest2) op []
            (fun o ho => approx_equal_of_no_active
              (hign op (List.mem_cons_self op _))
              (hign o (List.mem_cons_of_mem op ho)))]
        rfl
      simp only [List.map_cons, List.map_nil, List.flatten,
        dedupCluster, if_neg hlen, hproc]
      rfl

/-- Closed witness for C10: two fully-ignored operons with different
contigs and different feature contents collapse to the first alone. -/
theorem fully_ignored_collapse_witness :
    deduplicate_operons_approximate [opAllIgnored1, opAllIgnored2]
      = [opAllIgnored1] :=
  fully_ignored_collapse [opAllIgnored1, opAllIgnored2] (by decide) (by decide)

/-! ### Idempotence of approximate deduplication -/

theorem sequencesMatch_symm {xs ys : List Feature}
    (h : sequencesMatch xs ys) : sequencesMatch ys xs := by
  unfold sequencesMatch at h ⊢
  induction h with
  | nil => exact List.Forall₂.nil
  | cons h1 _ ih => exact List.Forall₂.cons h1.symm ih

theorem approx_equal_true_symm {a b : Operon}
    (h : operonsAreApproximatelyEqual a b = true) :
    operonsAreApproximatelyEqual b a = true := by
  rw [approx_equal_matches_amended_spec] at h ⊢
  unfold approxEqualSpecAmended at h ⊢
  rcases h with ⟨hn, hg, hs⟩ | ⟨hnot, hn, hg, hs⟩
  · exact Or.inl ⟨hn.symm, hg.symm, sequencesMatch_symm hs⟩
  · refine Or.inr ⟨fun hx => hnot ⟨hx.1.symm, hx.2.symm⟩, ?_, ?_, ?_⟩
    · rw [hn, List.reverse_reverse]
    · rw [hg, List.reverse_reverse]
    · have h2 := sequencesMatch_symm hs
      unfold sequencesMatch at h2 ⊢
      rw [← List.reverse_reverse (specNonCrisprFeatures a)] at h2
      exact List.forall₂_reverse_iff.mp h2

/-- The orientation class of the forward key of an operon: two operons can be
judged approximately equal only when their forward keys are equal or
mutually reversed. -/
def sameClass (a b : Operon) : Prop :=
  getSortedFeatureNames a = getSortedFeatureNames b ∨
    getSortedFeatureNames a = (getSortedFeatureNames b).reverse

theorem sameClass_symm {a b : Operon} (h : sameClass a b) : sameClass b a := by
  rcases h with h | h
  · exact Or.inl h.symm
  · exact Or.inr (by rw [h, List.reverse_reverse])

theorem keys_class_disjoint {K : List (List String)}
    (hrev : ∀ k ∈ K, k.reverse ∈ K → k.reverse = k)
    {k1 k2 a b : List String} (h1 : k1 ∈ K) (h2 : k2 ∈ K) (hne : k1 ≠ k2)
    (ha : a = k1 ∨ a = k1.reverse) (hb : b = k2 ∨ b = k2.reverse) :
    ¬(a = b ∨ a = b.reverse) := by
  have hcase : ∀ h : k1 = k2.reverse, False := by
    intro h
    exact hne ((hrev k2 h2 (h ▸ h1)).symm ▸ h)
  have hcase' : ∀ h : k1.reverse = k2, False := by
    intro h
    exact hne ((hrev k1 h1 (h ▸ h2)) ▸ h)
  rintro (hab | hab) <;> rcases ha with rfl | rfl <;> rcases hb with rfl | rfl
  · exact hne hab
  · exact hcase hab
  · exact hcase' hab
  · exact hne (List.reverse_injective hab)
  · exact hcase hab
  · exact hne (by rw [hab, List.reverse_reverse])
  · exact hne (List.reverse_injective hab)
  · exact hcase' (by rw [hab, List.reverse_reverse])

theorem bucket_members_sameClass (operons : List Operon)
    {b : List String × List Operon}
    (hb : b ∈ cluster_operons_by_feature_order operons) :
    ∀ x ∈ b.2, ∀ y ∈ b.2, sameClass x y := by
  have hbuck := (cluster_binsInv operons).2
  intro x hx y hy
  rcases hbuck b hb x hx with hxk | hxk <;> rcases hbuck b hb y hy with hyk | hyk
  · exact Or.inl (hxk.trans hyk.symm)
  · exact Or.inr (by rw [hxk, hyk, List.reverse_reverse])
  · exact Or.inr (by rw [hxk, hyk])
  · exact Or.inl (by rw [hxk, hyk])

/-- The key robustness property of the deduplicated output: any two
distinct representatives either live in different orientation classes or
fail the approximate-equality test in both directions. -/
theorem dedup_output_pairwise (operons : List Operon) :
    List.Pairwise
      (fun a b => sameClass a b →
        operonsAreApproximatelyEqual a b = false ∧
          operonsAreApproximatelyEqual b a = false)
      (deduplicate_operons_approximate operons) := by
  rw [dedup_approx_eq_flatten, List.pairwise_flatten]
  obtain ⟨⟨hnd, hrev⟩, hbuck⟩ := cluster_binsInv operons
  constructor
  · intro l hl
    obtain ⟨b, _, rfl⟩ := List.mem_map.mp hl
    rw [dedupCluster_eq_leaders]
    have hpw := processCluster_leaders_pairwise operonsAreApproximatelyEqual
      (fun _ _ h => approx_equal_true_symm h) b.2
    exact hpw.imp (fun hf => fun _ => hf)
  · rw [List.pairwise_map]
    have hkeyspw : List.Pairwise
        (fun b1 b2 : List String × List Operon => b1.1 ≠ b2.1)
        (cluster_operons_by_feature_order operons) := List.pairwise_map.mp hnd
    refine hkeyspw.imp_of_mem ?_
    intro b1 b2 hb1 hb2 hne x hx y hy
    rw [dedupCluster_eq_leaders] at hx hy
    obtain ⟨gx, hgx, rfl⟩ := List.mem_map.mp hx
    obtain ⟨gy, hgy, rfl⟩ := List.mem_map.mp hy
    have hxm : gx.1 ∈ b1.2 := processCluster_leader_mem _ hgx
    have hym : gy.1 ∈ b2.2 := processCluster_leader_mem _ hgy
    intro hclass
    exact absurd hclass (keys_class_disjoint hrev
      (List.mem_map_of_mem _ hb1) (List.mem_map_of_mem _ hb2) hne
      (hbuck b1 hb1 _ hxm) (hbuck b2 hb2 _ hym))

/-- Deduplicating a list whose members pairwise either differ in
orientation class or fail the equality test returns the whole list (up to
the permutation induced by clustering). -/
theorem dedup_of_pairwise_perm (operons : List Operon)
    (h : List.Pairwise
      (fun a b => sameClass a b →
        operonsAreApproximatelyEqual a b = false ∧
          operonsAreApproximatelyEqual b a = false) operons) :
    (deduplicate_operons_approximate operons).Perm operons := by
  have hQsymm : ∀ {x y : Operon},
      (sameClass x y →
        operonsAreApproximatelyEqual x y = false ∧
          operonsAreApproximatelyEqual y x = false) →
      (sameClass y x →
        operonsAreApproximatelyEqual y x = false ∧
          operonsAreApproximatelyEqual x y = false) := by
    intro x y hq hc
    obtain ⟨h1, h2⟩ := hq (sameClass_symm hc)
    exact ⟨h2, h1⟩
  have hflatpw := ((cluster_values_perm operons).pairwise_iff hQsymm).mpr h
  rw [dedup_approx_eq_flatten]
  have hmap : (cluster_operons_by_feature_order operons).map
      (fun b => dedupCluster operonsAreApproximatelyEqual b.2)
      = (cluster_operons_by_feature_order operons).map (fun b => b.2) := by
    refine List.map_congr_left ?_
    intro b hb
    have hsub : b.2.Sublist
        (((cluster_operons_by_feature_order operons).map (fun b => b.2)).flatten) :=
      List.sublist_flatten_of_mem (List.mem_map_of_mem _ hb)
    have hpwb := hflatpw.sublist hsub
    have hfalse : List.Pairwise
        (fun a b => operonsAreApproximatelyEqual a b = false) b.2 := by
      refine hpwb.imp_of_mem ?_
      intro x y hx hy hq
      exact (hq (bucket_members_sameClass operons hb x hx y hy)).1
    rw [dedupCluster_eq_leaders, processCluster_of_pairwise_false _ _ hfalse,
      List.map_map]
    exact List.map_id b.2
  rw [hmap]
  exact cluster_values_perm operons

/-- C4: approximate deduplication is idempotent — deduplicating the
output of a deduplication run yields the same set of Operons (a
permutation of it), with no further collapsing. -/
theorem deduplicate_approximate_idempotent (operons : List Operon) :
    (deduplicate_operons_approximate
      (deduplicate_operons_approximate operons)).Perm
      (deduplicate_operons_approximate operons) :=
  dedup_of_pairwise_perm _ (dedup_output_pairwise operons)

end OperonAnalyzer
